import Mathlib

/-!
Verification of the indexing and query core of `search_engine.py`
(class `SearchEngine`).

Modelling conventions:
* File IO and HTML extraction are external collaborators: `parse_document`
  here receives the already-extracted plain text together with the
  filename, exactly as the spec's data-flow prescribes.
* A Python `set` of document names is modelled as a duplicate-free
  `List String` in insertion order; `set.add` becomes `addOnce`.
* `defaultdict(set)` / `defaultdict(Counter)` are modelled by a list of
  present keys together with a total value function.  A `__getitem__` on
  an absent key inserts the key and resets its value slot to the default
  (empty set / empty counter), mirroring Python's defaultdict semantics;
  a `Counter` read of an absent inner key yields 0 without inserting.
* The query pipeline `search` is written in state-passing style
  (`searchSt`), threading the engine through every dictionary access, so
  that "search does not mutate the index" is a provable statement rather
  than a modelling artifact.
* `str.lower` is `Char.toLower` mapped over the characters,
  `re.findall(r"\b\w+\b", ...)` extracts maximal runs of word
  characters, and `query.strip()` being empty is `isBlank`.
-/

/-- Word characters of the regex class `\w`: alphanumerics and underscore. -/
def isWordChar (c : Char) : Bool := c.isAlphanum || c == '_'

/-- Accumulating scanner behind `tokenize`: walks the character list,
collecting the current maximal run of word characters (in reverse) in
`cur` and emitting it when a non-word character or the end is reached. -/
def tokensAux : List Char → List Char → List String
  | [], cur => if cur.isEmpty then [] else [String.mk cur.reverse]
  | c :: cs, cur =>
    if isWordChar c then
      tokensAux cs (c :: cur)
    else if cur.isEmpty then
      tokensAux cs []
    else
      String.mk cur.reverse :: tokensAux cs []

/-- `re.findall(r"\b\w+\b", text.lower())`: lowercase the text, then
extract the maximal runs of word characters in order. -/
def tokenize (text : String) : List String :=
  tokensAux (text.data.map Char.toLower) []

/-- The stopword set returned by `SearchEngine._load_stopwords`. -/
def defaultStopwords : List String :=
  ["a", "an", "the", "and", "or", "but", "is", "are", "was", "were",
   "in", "on", "at", "to", "for", "with", "by", "about", "like",
   "from", "of", "as", "this", "that", "these", "those", "it", "its"]

/-- The token filter of `parse_document` (lines 64-69): tokenize the
document text, then keep tokens that are not stopwords and have length
greater than one. -/
def normalizeDoc (sw : List String) (text : String) : List String :=
  (tokenize text).filter (fun token => !sw.contains token && token.length > 1)

/-- The token filter of `search` (lines 102-103): tokenize the raw query,
then keep tokens that are not stopwords and have length greater than one. -/
def normalizeQuery (sw : List String) (query : String) : List String :=
  (tokenize query).filter (fun t => !sw.contains t && t.length > 1)

/-- `query.strip()` is empty: every character of the query is whitespace. -/
def isBlank (query : String) : Bool :=
  query.data.all Char.isWhitespace

/-- The mutable state of a `SearchEngine` instance.  The two dictionaries
`inverted_index` and `term_frequency` are each modelled by their key list
plus total value functions (`posting` for the per-term document set,
`tf_docs`/`tf` for the per-term Counter's keys and counts). -/
structure Engine where
  ii_keys : List String
  posting : String → List String
  tf_keys : List String
  tf_docs : String → List String
  tf : String → String → Nat
  stopwords : List String
  documents : List String
  document_urls : List (String × String)

attribute [ext] Engine

/-- The freshly constructed engine: empty index, empty frequency table,
the default stopword set, no documents.  The URL side table is loaded
externally; an unloadable mapping file degrades to the empty mapping. -/
def initEngine : Engine :=
  { ii_keys := []
    posting := fun _ => []
    tf_keys := []
    tf_docs := fun _ => []
    tf := fun _ _ => 0
    stopwords := defaultStopwords
    documents := []
    document_urls := [] }

/-- `set.add` on the list model of a Python set: append the element if it
is not already present. -/
def addOnce (x : String) (l : List String) : List String :=
  if x ∈ l then l else l ++ [x]

/-- One iteration of the indexing loop of `parse_document` (lines 73-75):
`self.inverted_index[token].add(filename)` inserts the key `token` into
the defaultdict if absent (resetting its slot to the empty set) and adds
`filename`; `self.term_frequency[token][filename] = cnt token` likewise
inserts `token` with an empty Counter if absent and then writes the
count for `filename`. -/
def indexToken (filename : String) (cnt : String → Nat) (e : Engine)
    (token : String) : Engine :=
  { e with
    ii_keys := addOnce token e.ii_keys
    posting := fun t =>
      if t = token then
        addOnce filename (if token ∈ e.ii_keys then e.posting token else [])
      else e.posting t
    tf_keys := addOnce token e.tf_keys
    tf_docs := fun t =>
      if t = token then
        addOnce filename (if token ∈ e.tf_keys then e.tf_docs token else [])
      else e.tf_docs t
    tf := fun t d =>
      if t = token then
        if d = filename then cnt token
        else if token ∈ e.tf_keys then e.tf token d else 0
      else e.tf t d }

/-- `SearchEngine.parse_document`, after the external HTML extraction has
produced `text`: normalize the text, tally per-term counts within this
document (`Counter(filtered_tokens)`), and run the indexing loop once per
distinct term.  `Counter(l)` iterates each distinct element once, with
its multiplicity `l.count`; the iteration order does not affect the
resulting state, so it is modelled by `List.dedup`. -/
def parse_document (e : Engine) (filename text : String) : Engine :=
  let filtered_tokens := normalizeDoc e.stopwords text
  (filtered_tokens.dedup).foldl
    (indexToken filename (fun t => filtered_tokens.count t)) e

/-- One iteration of the `build_index` loop: parse a document (which in
the model always succeeds, since IO failures belong to the external
collaborator) and append its filename to `self.documents`. -/
def buildStep (acc : Engine) (p : String × String) : Engine :=
  let e1 := parse_document acc p.1 p.2
  { e1 with documents := e1.documents ++ [p.1] }

/-- `SearchEngine.build_index` on an externally enumerated corpus of
(filename, extracted text) pairs: index each document and record it in
`self.documents`. -/
def build_index (docs : List (String × String)) : Engine :=
  docs.foldl buildStep initEngine

/-- A bare sequence of `parse_document` calls starting from the fresh
engine (no `self.documents` bookkeeping). -/
def indexDocs (docs : List (String × String)) : Engine :=
  docs.foldl (fun acc p => parse_document acc p.1 p.2) initEngine

/-- The disposition `search` reports to the caller (via its printed
message) alongside the returned result list. -/
inductive Disposition where
  | emptyQuery : Disposition
  | allStopwords : Disposition
  | termNotFound : String → Disposition
  | noMatch : Disposition
  | results : Disposition
deriving DecidableEq, Repr

/-- `self.inverted_index[term]` on the defaultdict: if the key is present
return its posting set unchanged; otherwise insert the key with an empty
set and return that empty set. -/
def diiLookup (e : Engine) (t : String) : Engine × List String :=
  if t ∈ e.ii_keys then (e, e.posting t)
  else
    ({ e with
        ii_keys := e.ii_keys ++ [t]
        posting := fun u => if u = t then [] else e.posting u }, [])

/-- `self.term_frequency[term]` on the defaultdict: if the key is present
return its Counter unchanged; otherwise insert the key with an empty
Counter and return the empty Counter (every count 0). -/
def dtfLookup (e : Engine) (t : String) : Engine × (String → Nat) :=
  if t ∈ e.tf_keys then (e, e.tf t)
  else
    ({ e with
        tf_keys := e.tf_keys ++ [t]
        tf_docs := fun u => if u = t then [] else e.tf_docs u
        tf := fun u => if u = t then (fun _ => 0) else e.tf u },
      fun _ => 0)

/-- The conjunctive-resolution loop of `search` (lines 109-119):
`matching_docs` starts as `None`; for each term in order, if the term is
a key of the inverted index its posting set is taken (copied the first
time, intersected in place afterwards), otherwise the loop reports the
term and aborts.  Intersection `&=` keeps the elements of the
accumulator that lie in the term's posting set. -/
def intersectLoopSt (e : Engine) (acc : Option (List String)) :
    List String → Engine × Except String (Option (List String))
  | [] => (e, Except.ok acc)
  | t :: rest =>
    if t ∈ e.ii_keys then
      let p := diiLookup e t
      match acc with
      | none => intersectLoopSt p.1 (some p.2) rest
      | some m =>
        intersectLoopSt p.1 (some (m.filter (fun d => d ∈ p.2))) rest
    else (e, Except.error t)

/-- The score generator of `search` (lines 127-129):
`sum(self.term_frequency[term][doc] for term in filtered_terms if term in
self.term_frequency)` — terms absent from the outer dict are skipped by
the guard, present terms contribute their Counter's count for `doc`
(0 when `doc` has no entry, without inserting one). -/
def scoreSt (e : Engine) (doc : String) : List String → Engine × Nat
  | [] => (e, 0)
  | t :: ts =>
    if t ∈ e.tf_keys then
      let p := dtfLookup e t
      let rest := scoreSt p.1 doc ts
      (rest.1, p.2 doc + rest.2)
    else scoreSt e doc ts

/-- The ranking loop of `search` (lines 125-130): score each candidate
document of the intersection in turn. -/
def rankSt (e : Engine) (terms : List String) :
    List String → Engine × List (String × Nat)
  | [] => (e, [])
  | d :: ds =>
    let p := scoreSt e d terms
    let rest := rankSt p.1 terms ds
    (rest.1, (d, p.2) :: rest.2)

/-- Stable descending insertion used by `sortByScore`: an element is
placed before the first element of strictly smaller score, and after
existing elements of equal score (they come from earlier positions of
the original list, so ties keep their original relative order). -/
def insertDesc (p : String × Nat) : List (String × Nat) →
    List (String × Nat)
  | [] => [p]
  | q :: l => if q.2 ≤ p.2 then p :: q :: l else q :: insertDesc p l

/-- `ranked_results.sort(key=lambda x: x[1], reverse=True)`: Python's
sort is stable, and a stable sort into non-increasing order of score is
uniquely determined by the input, so the structurally recursive stable
insertion sort computes the same function. -/
def sortByScore : List (String × Nat) → List (String × Nat)
  | [] => []
  | p :: l => insertDesc p (sortByScore l)

/-- `SearchEngine.search` in state-passing form: returns the engine state
after the call together with the reported disposition and the ranked
result list.  Mirrors lines 96-133 of the source: blank-query check,
normalization, stopword-only check, conjunctive resolution with
short-circuit on an absent term, the `if not matching_docs` emptiness
check, scoring, and the final descending sort. -/
def searchSt (e : Engine) (query : String) :
    Engine × Disposition × List (String × Nat) :=
  if isBlank query then (e, Disposition.emptyQuery, [])
  else
    let filtered_terms := normalizeQuery e.stopwords query
    if filtered_terms.isEmpty then (e, Disposition.allStopwords, [])
    else
      match intersectLoopSt e none filtered_terms with
      | (e1, Except.error t) => (e1, Disposition.termNotFound t, [])
      | (e1, Except.ok none) => (e1, Disposition.noMatch, [])
      | (e1, Except.ok (some matching_docs)) =>
        if matching_docs.isEmpty then (e1, Disposition.noMatch, [])
        else
          let p := rankSt e1 filtered_terms matching_docs
          (p.1, Disposition.results, sortByScore p.2)

/-- The value returned by `search` (the printed disposition dropped). -/
def search (e : Engine) (query : String) : Disposition × List (String × Nat) :=
  (searchSt e query).2

/-! ### Basic facts about `addOnce` -/

theorem mem_addOnce {y x : String} {l : List String} :
    y ∈ addOnce x l ↔ y = x ∨ y ∈ l := by
  unfold addOnce
  split
  · constructor
    · exact fun h => Or.inr h
    · rintro (rfl | h) <;> assumption
  · simp [or_comm]

theorem self_mem_addOnce (x : String) (l : List String) : x ∈ addOnce x l := by
  simp [mem_addOnce]

theorem addOnce_of_mem {x : String} {l : List String} (h : x ∈ l) :
    addOnce x l = l := by
  simp [addOnce, h]

theorem addOnce_idem (x : String) (l : List String) :
    addOnce x (addOnce x l) = addOnce x l :=
  addOnce_of_mem (self_mem_addOnce x l)

theorem foldl_addOnce_mem {t : String} :
    ∀ (L : List String) (ks : List String),
    (t ∈ L.foldl (fun ks a => addOnce a ks) ks ↔ t ∈ ks ∨ t ∈ L)
  | [], ks => by simp
  | a :: L, ks => by
    rw [List.foldl_cons, foldl_addOnce_mem L]
    simp [mem_addOnce]
    tauto

theorem foldl_addOnce_of_subset :
    ∀ (L : List String) (ks : List String), (∀ a ∈ L, a ∈ ks) →
    L.foldl (fun ks a => addOnce a ks) ks = ks
  | [], _, _ => rfl
  | a :: L, ks, h => by
    rw [List.foldl_cons, addOnce_of_mem (h a (by simp))]
    exact foldl_addOnce_of_subset L ks (fun b hb => h b (by simp [hb]))

/-! ### Characterization of the indexing fold of `parse_document` -/

theorem fold_ii_keys (f : String) (cnt : String → Nat) :
    ∀ (L : List String) (e : Engine),
    (L.foldl (indexToken f cnt) e).ii_keys =
      L.foldl (fun ks a => addOnce a ks) e.ii_keys
  | [], _ => rfl
  | a :: L, e => by
    rw [List.foldl_cons, List.foldl_cons, fold_ii_keys f cnt L]
    rfl

theorem fold_tf_keys (f : String) (cnt : String → Nat) :
    ∀ (L : List String) (e : Engine),
    (L.foldl (indexToken f cnt) e).tf_keys =
      L.foldl (fun ks a => addOnce a ks) e.tf_keys
  | [], _ => rfl
  | a :: L, e => by
    rw [List.foldl_cons, List.foldl_cons, fold_tf_keys f cnt L]
    rfl

theorem fold_mem_ii_keys {f : String} {cnt : String → Nat} {L : List String}
    {e : Engine} {t : String} :
    t ∈ (L.foldl (indexToken f cnt) e).ii_keys ↔ t ∈ e.ii_keys ∨ t ∈ L := by
  rw [fold_ii_keys, foldl_addOnce_mem]

theorem fold_mem_tf_keys {f : String} {cnt : String → Nat} {L : List String}
    {e : Engine} {t : String} :
    t ∈ (L.foldl (indexToken f cnt) e).tf_keys ↔ t ∈ e.tf_keys ∨ t ∈ L := by
  rw [fold_tf_keys, foldl_addOnce_mem]

theorem fold_stopwords (f : String) (cnt : String → Nat) :
    ∀ (L : List String) (e : Engine),
    (L.foldl (indexToken f cnt) e).stopwords = e.stopwords
  | [], _ => rfl
  | a :: L, e => by
    rw [List.foldl_cons, fold_stopwords f cnt L]
    rfl

theorem fold_documents (f : String) (cnt : String → Nat) :
    ∀ (L : List String) (e : Engine),
    (L.foldl (indexToken f cnt) e).documents = e.documents
  | [], _ => rfl
  | a :: L, e => by
    rw [List.foldl_cons, fold_documents f cnt L]
    rfl

theorem fold_document_urls (f : String) (cnt : String → Nat) :
    ∀ (L : List String) (e : Engine),
    (L.foldl (indexToken f cnt) e).document_urls = e.document_urls
  | [], _ => rfl
  | a :: L, e => by
    rw [List.foldl_cons, fold_document_urls f cnt L]
    rfl

theorem fold_posting (f : String) (cnt : String → Nat) :
    ∀ (L : List String) (e : Engine) (t : String), L.Nodup →
    (L.foldl (indexToken f cnt) e).posting t =
      if t ∈ L then addOnce f (if t ∈ e.ii_keys then e.posting t else [])
      else e.posting t
  | [], e, t, _ => by simp
  | a :: L, e, t, h => by
    rcases List.nodup_cons.mp h with ⟨ha, hL⟩
    rw [List.foldl_cons, fold_posting f cnt L _ t hL]
    by_cases hta : t = a
    · subst hta
      simp [ha, indexToken]
    · simp only [indexToken, List.mem_cons, hta, false_or, mem_addOnce,
        if_neg hta]
      split <;> rfl

theorem fold_tf_docs (f : String) (cnt : String → Nat) :
    ∀ (L : List String) (e : Engine) (t : String), L.Nodup →
    (L.foldl (indexToken f cnt) e).tf_docs t =
      if t ∈ L then addOnce f (if t ∈ e.tf_keys then e.tf_docs t else [])
      else e.tf_docs t
  | [], e, t, _ => by simp
  | a :: L, e, t, h => by
    rcases List.nodup_cons.mp h with ⟨ha, hL⟩
    rw [List.foldl_cons, fold_tf_docs f cnt L _ t hL]
    by_cases hta : t = a
    · subst hta
      simp [ha, indexToken]
    · simp only [indexToken, List.mem_cons, hta, false_or, mem_addOnce,
        if_neg hta]
      split <;> rfl

theorem fold_tf (f : String) (cnt : String → Nat) :
    ∀ (L : List String) (e : Engine) (t d : String), L.Nodup →
    (L.foldl (indexToken f cnt) e).tf t d =
      if t ∈ L then
        (if d = f then cnt t else if t ∈ e.tf_keys then e.tf t d else 0)
      else e.tf t d
  | [], e, t, d, _ => by simp
  | a :: L, e, t, d, h => by
    rcases List.nodup_cons.mp h with ⟨ha, hL⟩
    rw [List.foldl_cons, fold_tf f cnt L _ t d hL]
    by_cases hta : t = a
    · subst hta
      simp [ha, indexToken]
    · simp only [indexToken, List.mem_cons, hta, false_or, mem_addOnce,
        if_neg hta]
      split <;> rfl

/-! ### Blank queries produce no tokens -/

theorem tokensAux_eq_nil {l : List Char}
    (h : ∀ c ∈ l, isWordChar c = false) : tokensAux l [] = [] := by
  induction l with
  | nil => rfl
  | cons c cs ih =>
    have hc : isWordChar c = false := h c (by simp)
    simp only [tokensAux, hc, List.isEmpty_nil, if_true, Bool.false_eq_true,
      if_false]
    exact ih (fun c' hc' => h c' (by simp [hc']))

theorem isWordChar_toLower_of_whitespace {c : Char}
    (h : c.isWhitespace = true) : isWordChar (Char.toLower c) = false := by
  have h' : c = ' ' ∨ c = '\t' ∨ c = '\r' ∨ c = '\n' := by
    simpa [Char.isWhitespace, or_assoc] using h
  rcases h' with rfl | rfl | rfl | rfl <;> decide

theorem normalize_of_isBlank (sw : List String) (q : String)
    (h : isBlank q = true) : normalizeQuery sw q = [] := by
  unfold normalizeQuery tokenize
  rw [tokensAux_eq_nil]
  · rfl
  · intro c hc
    rcases List.mem_map.mp hc with ⟨c', hc', rfl⟩
    exact isWordChar_toLower_of_whitespace
      (by simpa using (List.all_eq_true.mp h) c' hc')

theorem isBlank_eq_false {sw : List String} {q : String}
    (h : normalizeQuery sw q ≠ []) : isBlank q = false := by
  rcases hb : isBlank q with _ | _
  · rfl
  · exact absurd (normalize_of_isBlank sw q hb) h

/-! ### `parse_document`: pointwise characterization of the new state -/

theorem parse_stopwords (e : Engine) (f x : String) :
    (parse_document e f x).stopwords = e.stopwords := by
  unfold parse_document
  rw [fold_stopwords]

theorem parse_documents (e : Engine) (f x : String) :
    (parse_document e f x).documents = e.documents := by
  unfold parse_document
  rw [fold_documents]

theorem parse_document_urls (e : Engine) (f x : String) :
    (parse_document e f x).document_urls = e.document_urls := by
  unfold parse_document
  rw [fold_document_urls]

theorem parse_mem_ii_keys {e : Engine} {f x t : String} :
    t ∈ (parse_document e f x).ii_keys ↔
      t ∈ e.ii_keys ∨ t ∈ normalizeDoc e.stopwords x := by
  unfold parse_document
  rw [fold_mem_ii_keys, List.mem_dedup]

theorem parse_mem_tf_keys {e : Engine} {f x t : String} :
    t ∈ (parse_document e f x).tf_keys ↔
      t ∈ e.tf_keys ∨ t ∈ normalizeDoc e.stopwords x := by
  unfold parse_document
  rw [fold_mem_tf_keys, List.mem_dedup]

theorem parse_posting (e : Engine) (f x t : String) :
    (parse_document e f x).posting t =
      if t ∈ normalizeDoc e.stopwords x then
        addOnce f (if t ∈ e.ii_keys then e.posting t else [])
      else e.posting t := by
  unfold parse_document
  rw [fold_posting _ _ _ _ _ (List.nodup_dedup _)]
  simp [List.mem_dedup]

theorem parse_tf_docs (e : Engine) (f x t : String) :
    (parse_document e f x).tf_docs t =
      if t ∈ normalizeDoc e.stopwords x then
        addOnce f (if t ∈ e.tf_keys then e.tf_docs t else [])
      else e.tf_docs t := by
  unfold parse_document
  rw [fold_tf_docs _ _ _ _ _ (List.nodup_dedup _)]
  simp [List.mem_dedup]

theorem parse_tf (e : Engine) (f x t d : String) :
    (parse_document e f x).tf t d =
      if t ∈ normalizeDoc e.stopwords x then
        (if d = f then (normalizeDoc e.stopwords x).count t
         else if t ∈ e.tf_keys then e.tf t d else 0)
      else e.tf t d := by
  unfold parse_document
  rw [fold_tf _ _ _ _ _ _ (List.nodup_dedup _)]
  simp [List.mem_dedup]

theorem parse_ii_keys_eq (e : Engine) (f x : String) :
    (parse_document e f x).ii_keys =
      (normalizeDoc e.stopwords x).dedup.foldl
        (fun ks a => addOnce a ks) e.ii_keys := by
  unfold parse_document
  rw [fold_ii_keys]

theorem parse_tf_keys_eq (e : Engine) (f x : String) :
    (parse_document e f x).tf_keys =
      (normalizeDoc e.stopwords x).dedup.foldl
        (fun ks a => addOnce a ks) e.tf_keys := by
  unfold parse_document
  rw [fold_tf_keys]

/-! ### The conjunctive-resolution loop -/

/-- The pure value of the intersection computed by the loop when every
term is present: fold `&=` over the remaining posting sets. -/
def interList (e : Engine) (m : List String) (L : List String) : List String :=
  L.foldl (fun s u => s.filter (fun d => d ∈ e.posting u)) m

theorem intersect_frame :
    ∀ (L : List String) (acc : Option (List String)) (e : Engine),
    (intersectLoopSt e acc L).1 = e
  | [], _, _ => rfl
  | t :: rest, acc, e => by
    by_cases h : t ∈ e.ii_keys
    · simp only [intersectLoopSt, if_pos h, diiLookup]
      rcases acc with _ | m <;> simp only [if_pos h] <;>
        exact intersect_frame rest _ e
    · simp [intersectLoopSt, h]

theorem intersect_ok :
    ∀ (L : List String) (m : List String) (e : Engine),
    (∀ u ∈ L, u ∈ e.ii_keys) →
    intersectLoopSt e (some m) L = (e, Except.ok (some (interList e m L)))
  | [], m, e, _ => rfl
  | t :: rest, m, e, h => by
    have ht : t ∈ e.ii_keys := h t (by simp)
    simp only [intersectLoopSt, if_pos ht, diiLookup]
    rw [intersect_ok rest _ e (fun u hu => h u (by simp [hu]))]
    simp [interList]

theorem intersect_start (t : String) (ts : List String) (e : Engine)
    (h : ∀ u ∈ t :: ts, u ∈ e.ii_keys) :
    intersectLoopSt e none (t :: ts) =
      (e, Except.ok (some (interList e (e.posting t) ts))) := by
  have ht : t ∈ e.ii_keys := h t (by simp)
  simp only [intersectLoopSt, if_pos ht, diiLookup]
  exact intersect_ok ts _ e (fun u hu => h u (by simp [hu]))

theorem intersect_err :
    ∀ (pre : List String) (acc : Option (List String)) (t : String)
      (suf : List String) (e : Engine),
    (∀ u ∈ pre, u ∈ e.ii_keys) → t ∉ e.ii_keys →
    intersectLoopSt e acc (pre ++ t :: suf) = (e, Except.error t)
  | [], acc, t, suf, e, _, ht => by
    rcases acc with _ | m <;> simp [intersectLoopSt, ht]
  | u :: pre, acc, t, suf, e, h, ht => by
    have hu : u ∈ e.ii_keys := h u (by simp)
    simp only [List.cons_append, intersectLoopSt, if_pos hu, diiLookup]
    rcases acc with _ | m <;>
      exact intersect_err pre _ t suf e (fun v hv => h v (by simp [hv])) ht

theorem mem_interList :
    ∀ (L : List String) (m : List String) (e : Engine) (d : String),
    (d ∈ interList e m L ↔ d ∈ m ∧ ∀ u ∈ L, d ∈ e.posting u)
  | [], m, e, d => by simp [interList]
  | u :: L, m, e, d => by
    simp only [interList, List.foldl_cons]
    rw [show (L.foldl (fun s v => s.filter (fun x => x ∈ e.posting v))
        (m.filter (fun x => x ∈ e.posting u))) =
        interList e (m.filter (fun x => x ∈ e.posting u)) L from rfl]
    rw [mem_interList L _ e d]
    simp only [List.mem_filter, decide_eq_true_eq, List.mem_cons]
    constructor
    · rintro ⟨⟨hm, hu⟩, hrest⟩
      exact ⟨hm, fun v hv => by rcases hv with rfl | hv
                                exacts [hu, hrest v hv]⟩
    · rintro ⟨hm, hall⟩
      exact ⟨⟨hm, hall u (Or.inl rfl)⟩, fun v hv => hall v (Or.inr hv)⟩

/-! ### Scoring and ranking -/

theorem scoreSt_frame :
    ∀ (ts : List String) (e : Engine) (doc : String),
    (scoreSt e doc ts).1 = e
  | [], _, _ => rfl
  | t :: ts, e, doc => by
    by_cases h : t ∈ e.tf_keys
    · simp only [scoreSt, if_pos h, dtfLookup]
      exact scoreSt_frame ts e doc
    · simp only [scoreSt, if_neg h]
      exact scoreSt_frame ts e doc

theorem scoreSt_val :
    ∀ (ts : List String) (e : Engine) (doc : String),
    (scoreSt e doc ts).2 =
      ((ts.filter (fun u => u ∈ e.tf_keys)).map (fun u => e.tf u doc)).sum
  | [], _, _ => rfl
  | t :: ts, e, doc => by
    by_cases h : t ∈ e.tf_keys
    · simp only [scoreSt, if_pos h, dtfLookup, List.filter_cons,
        decide_eq_true h, List.map_cons, List.sum_cons]
      rw [scoreSt_val ts e doc]
      simp
    · simp only [scoreSt, if_neg h, List.filter_cons]
      rw [scoreSt_val ts e doc]
      simp [h]

theorem rankSt_frame :
    ∀ (ds : List String) (e : Engine) (terms : List String),
    (rankSt e terms ds).1 = e
  | [], _, _ => rfl
  | d :: ds, e, terms => by
    simp only [rankSt]
    rw [scoreSt_frame terms e d]
    exact rankSt_frame ds e terms

theorem rankSt_val :
    ∀ (ds : List String) (e : Engine) (terms : List String),
    (rankSt e terms ds).2 =
      ds.map (fun d => (d,
        ((terms.filter (fun u => u ∈ e.tf_keys)).map (fun u => e.tf u d)).sum))
  | [], _, _ => rfl
  | d :: ds, e, terms => by
    simp only [rankSt, List.map_cons]
    rw [scoreSt_frame terms e d, scoreSt_val terms e d,
      rankSt_val ds e terms]

/-! ### Characterizations of `searchSt` on each branch -/

theorem searchSt_absent (e : Engine) (q t : String) (pre suf : List String)
    (hq : normalizeQuery e.stopwords q = pre ++ t :: suf)
    (hpre : ∀ u ∈ pre, u ∈ e.ii_keys) (ht : t ∉ e.ii_keys) :
    searchSt e q = (e, Disposition.termNotFound t, []) := by
  have hb : isBlank q = false := isBlank_eq_false (by rw [hq]; simp)
  unfold searchSt
  rw [hq] at *
  simp only [hb, Bool.false_eq_true, if_false]
  have hne : (pre ++ t :: suf).isEmpty = false := by
    rcases pre with _ | ⟨a, pre⟩ <;> rfl
  simp only [hne, Bool.false_eq_true, if_false]
  rw [intersect_err pre none t suf e hpre ht]

theorem searchSt_noMatch (e : Engine) (q t : String) (ts : List String)
    (hq : normalizeQuery e.stopwords q = t :: ts)
    (hpres : ∀ u ∈ t :: ts, u ∈ e.ii_keys)
    (hM : interList e (e.posting t) ts = []) :
    searchSt e q = (e, Disposition.noMatch, []) := by
  have hb : isBlank q = false := isBlank_eq_false (by rw [hq]; simp)
  unfold searchSt
  rw [hq] at *
  simp only [hb, Bool.false_eq_true, if_false, List.isEmpty_cons]
  rw [intersect_start t ts e hpres, hM]
  rfl

theorem searchSt_results (e : Engine) (q t : String) (ts : List String)
    (hq : normalizeQuery e.stopwords q = t :: ts)
    (hpres : ∀ u ∈ t :: ts, u ∈ e.ii_keys)
    (hM : interList e (e.posting t) ts ≠ []) :
    searchSt e q =
      (e, Disposition.results,
        sortByScore ((interList e (e.posting t) ts).map (fun d => (d,
          (((t :: ts).filter (fun u => u ∈ e.tf_keys)).map
            (fun u => e.tf u d)).sum)))) := by
  have hb : isBlank q = false := isBlank_eq_false (by rw [hq]; simp)
  unfold searchSt
  rw [hq] at *
  simp only [hb, Bool.false_eq_true, if_false, List.isEmpty_cons]
  rw [intersect_start t ts e hpres]
  have hM' : (interList e (e.posting t) ts).isEmpty = false := by
    simpa [List.isEmpty_iff] using hM
  simp only [hM', Bool.false_eq_true, if_false]
  rw [rankSt_frame, rankSt_val]

/-! ### Sortedness of the ranked output -/

theorem mem_insertDesc {a p : String × Nat} :
    ∀ {l : List (String × Nat)}, a ∈ insertDesc p l ↔ a = p ∨ a ∈ l
  | [] => by simp [insertDesc]
  | q :: l => by
    unfold insertDesc
    split
    · simp
    · rw [List.mem_cons, mem_insertDesc]
      simp
      tauto

theorem insertDesc_sorted (p : String × Nat) :
    ∀ (l : List (String × Nat)),
    l.Pairwise (fun a b : String × Nat => b.2 ≤ a.2) →
    (insertDesc p l).Pairwise (fun a b : String × Nat => b.2 ≤ a.2)
  | [], _ => by simp [insertDesc]
  | q :: l, h => by
    rcases List.pairwise_cons.mp h with ⟨hq, hl⟩
    unfold insertDesc
    split
    · refine List.pairwise_cons.mpr ⟨?_, h⟩
      intro b hb
      rcases List.mem_cons.mp hb with rfl | hb'
      · assumption
      · exact le_trans (hq b hb') (by assumption)
    · refine List.pairwise_cons.mpr ⟨?_, insertDesc_sorted p l hl⟩
      intro b hb
      rcases mem_insertDesc.mp hb with rfl | hb'
      · omega
      · exact hq b hb'

theorem sortByScore_sorted :
    ∀ (l : List (String × Nat)),
    (sortByScore l).Pairwise (fun a b : String × Nat => b.2 ≤ a.2)
  | [] => by simp [sortByScore]
  | p :: l => insertDesc_sorted p (sortByScore l) (sortByScore_sorted l)

theorem mem_sortByScore {p : String × Nat} :
    ∀ {l : List (String × Nat)}, p ∈ sortByScore l ↔ p ∈ l
  | [] => Iff.rfl
  | a :: l => by
    unfold sortByScore
    rw [mem_insertDesc, mem_sortByScore, List.mem_cons]

/-! ### `searchSt` never changes the engine state -/

theorem searchSt_state (e : Engine) (q : String) : (searchSt e q).1 = e := by
  unfold searchSt
  by_cases hb : isBlank q = true
  · simp [hb]
  · simp only [hb, if_false]
    rcases hE : (normalizeQuery e.stopwords q).isEmpty with _ | _
    · simp only [Bool.false_eq_true, if_false]
      rcases hi : intersectLoopSt e none (normalizeQuery e.stopwords q)
        with ⟨e1, res⟩
      have he1 : e1 = e := by
        have h := intersect_frame (normalizeQuery e.stopwords q) none e
        rw [hi] at h
        exact h
      rcases res with t | m
      · exact he1
      · rcases m with _ | M
        · exact he1
        · rcases hM : M.isEmpty with _ | _
          · simp only [hM, Bool.false_eq_true, if_false]
            rw [rankSt_frame]
            exact he1
          · simp [hM, he1]
    · simp [hE]

/-! ### The posting-set / frequency-table consistency invariant -/

/-- The cross-structure invariant of the data model: the key lists of the
two dictionaries coincide, value slots outside the keys are at their
defaults, and a document lies in a term's posting set exactly when the
frequency table has a positive entry for the pair. -/
def Consistent (e : Engine) : Prop :=
  e.ii_keys = e.tf_keys ∧
  (∀ t, t ∉ e.ii_keys → e.posting t = []) ∧
  (∀ t, t ∉ e.tf_keys → e.tf_docs t = []) ∧
  (∀ t d, d ∈ e.posting t ↔ d ∈ e.tf_docs t ∧ 0 < e.tf t d)

theorem consistent_init : Consistent initEngine := by
  refine ⟨rfl, ?_, ?_, ?_⟩ <;> simp [initEngine]

theorem consistent_parse (e : Engine) (f x : String) (h : Consistent e) :
    Consistent (parse_document e f x) := by
  obtain ⟨hkeys, hpost, hdocs, hiff⟩ := h
  refine ⟨?_, ?_, ?_, ?_⟩
  · rw [parse_ii_keys_eq, parse_tf_keys_eq, hkeys]
  · intro t ht
    rw [parse_mem_ii_keys] at ht
    push_neg at ht
    rw [parse_posting, if_neg ht.2]
    exact hpost t ht.1
  · intro t ht
    rw [parse_mem_tf_keys] at ht
    push_neg at ht
    rw [parse_tf_docs, if_neg ht.2]
    exact hdocs t ht.1
  · intro t d
    rw [parse_posting, parse_tf_docs, parse_tf]
    by_cases hN : t ∈ normalizeDoc e.stopwords x
    · simp only [hN, if_true]
      by_cases hdf : d = f
      · subst hdf
        have hc : 0 < (normalizeDoc e.stopwords x).count t :=
          List.count_pos_iff.mpr hN
        simp [self_mem_addOnce, hc]
      · rw [if_neg hdf, mem_addOnce, mem_addOnce]
        simp only [hdf, false_or]
        rw [hkeys]
        by_cases hk : t ∈ e.tf_keys
        · simp only [hk, if_true]
          exact hiff t d
        · simp [hk]
    · simp only [hN, if_false]
      exact hiff t d

theorem consistent_buildStep (e : Engine) (p : String × String)
    (h : Consistent e) : Consistent (buildStep e p) :=
  consistent_parse e p.1 p.2 h

theorem consistent_foldl_buildStep :
    ∀ (docs : List (String × String)) (e : Engine), Consistent e →
    Consistent (docs.foldl buildStep e)
  | [], _, h => h
  | p :: docs, e, h =>
    consistent_foldl_buildStep docs _ (consistent_buildStep e p h)

theorem consistent_build_index (docs : List (String × String)) :
    Consistent (build_index docs) :=
  consistent_foldl_buildStep docs initEngine consistent_init

theorem consistent_indexDocs :
    ∀ (docs : List (String × String)),
    Consistent (indexDocs docs) := by
  have aux : ∀ (docs : List (String × String)) (e : Engine), Consistent e →
      Consistent (docs.foldl (fun acc p => parse_document acc p.1 p.2) e) := by
    intro docs
    induction docs with
    | nil => exact fun e h => h
    | cons p docs ih =>
      intro e h
      exact ih _ (consistent_parse e p.1 p.2 h)
  exact fun docs => aux docs initEngine consistent_init

/-! ### Per-document facts established by indexing and preserved later -/

/-- What indexing a document establishes for one of its terms: the term
is a key of both dictionaries, the document is in its posting set, and
its frequency entry is `n`. -/
def DocFact (e : Engine) (t d : String) (n : Nat) : Prop :=
  t ∈ e.ii_keys ∧ t ∈ e.tf_keys ∧ d ∈ e.posting t ∧ e.tf t d = n

theorem parse_establishes (e : Engine) (f x t : String)
    (ht : t ∈ normalizeDoc e.stopwords x) :
    DocFact (parse_document e f x) t f ((normalizeDoc e.stopwords x).count t) := by
  refine ⟨?_, ?_, ?_, ?_⟩
  · exact parse_mem_ii_keys.mpr (Or.inr ht)
  · exact parse_mem_tf_keys.mpr (Or.inr ht)
  · rw [parse_posting, if_pos ht]
    exact self_mem_addOnce _ _
  · rw [parse_tf, if_pos ht]
    simp

theorem parse_preserves_docfact (e : Engine) (f x t d : String) (n : Nat)
    (hfd : f ≠ d) (h : DocFact e t d n) :
    DocFact (parse_document e f x) t d n := by
  obtain ⟨h1, h2, h3, h4⟩ := h
  refine ⟨parse_mem_ii_keys.mpr (Or.inl h1),
    parse_mem_tf_keys.mpr (Or.inl h2), ?_, ?_⟩
  · rw [parse_posting]
    by_cases hN : t ∈ normalizeDoc e.stopwords x
    · rw [if_pos hN, if_pos h1, mem_addOnce]
      exact Or.inr h3
    · rw [if_neg hN]
      exact h3
  · rw [parse_tf]
    by_cases hN : t ∈ normalizeDoc e.stopwords x
    · rw [if_pos hN, if_neg (fun hdf => hfd hdf.symm), if_pos h2]
      exact h4
    · rw [if_neg hN]
      exact h4

theorem buildStep_preserves_docfact (e : Engine) (p : String × String)
    (t d : String) (n : Nat) (hfd : p.1 ≠ d) (h : DocFact e t d n) :
    DocFact (buildStep e p) t d n :=
  parse_preserves_docfact e p.1 p.2 t d n hfd h

theorem foldl_buildStep_preserves_docfact :
    ∀ (docs : List (String × String)) (e : Engine) (t d : String) (n : Nat),
    d ∉ docs.map Prod.fst → DocFact e t d n →
    DocFact (docs.foldl buildStep e) t d n
  | [], _, _, _, _, _, h => h
  | p :: docs, e, t, d, n, hd, h => by
    rw [List.foldl_cons]
    have hp : p.1 ≠ d := fun hpd => hd (by simp [hpd.symm])
    exact foldl_buildStep_preserves_docfact docs _ t d n
      (fun hmem => hd (by simp at hmem ⊢; exact Or.inr hmem))
      (buildStep_preserves_docfact e p t d n hp h)

theorem buildStep_stopwords (e : Engine) (p : String × String) :
    (buildStep e p).stopwords = e.stopwords :=
  parse_stopwords e p.1 p.2

theorem foldl_buildStep_stopwords :
    ∀ (docs : List (String × String)) (e : Engine),
    (docs.foldl buildStep e).stopwords = e.stopwords
  | [], _ => rfl
  | p :: docs, e => by
    rw [List.foldl_cons, foldl_buildStep_stopwords docs _,
      buildStep_stopwords]

theorem build_index_stopwords (docs : List (String × String)) :
    (build_index docs).stopwords = defaultStopwords :=
  foldl_buildStep_stopwords docs initEngine

theorem build_index_docfact :
    ∀ (docs : List (String × String)) (e : Engine) (d x t : String),
    (docs.map Prod.fst).Nodup → (d, x) ∈ docs →
    t ∈ normalizeDoc e.stopwords x →
    DocFact (docs.foldl buildStep e) t d ((normalizeDoc e.stopwords x).count t)
  | [], _, _, _, _, _, hmem, _ => absurd hmem (List.not_mem_nil _)
  | p :: docs, e, d, x, t, hnd, hmem, ht => by
    rw [List.map_cons, List.nodup_cons] at hnd
    rw [List.foldl_cons]
    rcases List.mem_cons.mp hmem with heq | hmem'
    · subst heq
      have hfact : DocFact (buildStep e (d, x)) t d
          ((normalizeDoc e.stopwords x).count t) :=
        parse_establishes e d x t ht
      exact foldl_buildStep_preserves_docfact docs _ t d _ hnd.1 hfact
    · have hsw : (buildStep e p).stopwords = e.stopwords :=
        buildStep_stopwords e p
      have := build_index_docfact docs (buildStep e p) d x t hnd.2 hmem'
        (by rw [hsw]; exact ht)
      rw [hsw] at this
      exact this

/-! ### Claim theorems -/

/-- Claim C10: `parse_document` is idempotent on the engine state —
indexing the same (filename, text) pair twice leaves the whole engine
(inverted index, frequency table, and the untouched fields) identical to
indexing it once: posting-set insertion is a set `add`, and the
frequency entry is overwritten by assignment with the same local count. -/
theorem parse_document_idempotent (e : Engine) (f x : String) :
    parse_document (parse_document e f x) f x = parse_document e f x := by
  have hsw : (parse_document e f x).stopwords = e.stopwords :=
    parse_stopwords e f x
  refine Engine.ext ?_ ?_ ?_ ?_ ?_ ?_ ?_ ?_
  · rw [parse_ii_keys_eq (parse_document e f x) f x, hsw]
    exact foldl_addOnce_of_subset _ _
      (fun a ha => parse_mem_ii_keys.mpr (Or.inr (List.mem_dedup.mp ha)))
  · funext t
    rw [parse_posting (parse_document e f x) f x t, hsw]
    by_cases ht : t ∈ normalizeDoc e.stopwords x
    · rw [if_pos ht, if_pos (parse_mem_ii_keys.mpr (Or.inr ht)),
        parse_posting e f x t, if_pos ht, addOnce_idem]
    · rw [if_neg ht]
  · rw [parse_tf_keys_eq (parse_document e f x) f x, hsw]
    exact foldl_addOnce_of_subset _ _
      (fun a ha => parse_mem_tf_keys.mpr (Or.inr (List.mem_dedup.mp ha)))
  · funext t
    rw [parse_tf_docs (parse_document e f x) f x t, hsw]
    by_cases ht : t ∈ normalizeDoc e.stopwords x
    · rw [if_pos ht, if_pos (parse_mem_tf_keys.mpr (Or.inr ht)),
        parse_tf_docs e f x t, if_pos ht, addOnce_idem]
    · rw [if_neg ht]
  · funext t d
    rw [parse_tf (parse_document e f x) f x t d, hsw]
    by_cases ht : t ∈ normalizeDoc e.stopwords x
    · rw [if_pos ht, if_pos (parse_mem_tf_keys.mpr (Or.inr ht))]
      by_cases hdf : d = f
      · rw [if_pos hdf, parse_tf e f x t d, if_pos ht, if_pos hdf]
      · rw [if_neg hdf]
    · rw [if_neg ht]
  · rw [parse_stopwords (parse_document e f x) f x, hsw]
  · rw [parse_documents, parse_documents]
  · rw [parse_document_urls, parse_document_urls]

/-- Claim C2: after any sequence of `parse_document` calls (distinctness
of the documents is not even needed), a document id is in a term's
posting set exactly when the frequency table has an entry for the
(term, document) pair and that entry is strictly positive. -/
theorem posting_iff_tf_entry_positive (docs : List (String × String))
    (t d : String) :
    d ∈ (indexDocs docs).posting t ↔
      d ∈ (indexDocs docs).tf_docs t ∧ 0 < (indexDocs docs).tf t d :=
  (consistent_indexDocs docs).2.2.2 t d

/-- Claim C7: the tokenize-lowercase-filter pipeline applied to document
text in `parse_document` and the one applied to the raw query string in
`search` are extensionally the same function. -/
theorem normalizeDoc_eq_normalizeQuery (sw : List String) (s : String) :
    normalizeDoc sw s = normalizeQuery sw s := rfl

/-- Claim C9: `search` never mutates the engine's state — the engine
returned by the state-passing `searchSt` (which threads the state through
every defaultdict access, whose guards prevent key insertion, and models
the `.copy()` of the first posting set) is the input engine, so the
inverted index, frequency table, documents list, stopword set and URL
mapping are all unchanged. -/
theorem search_leaves_engine_unchanged (e : Engine) (q : String) :
    (searchSt e q).1 = e :=
  searchSt_state e q

/-- Claim C6: the result list returned by `search` is always sorted in
non-increasing order of score. -/
theorem search_results_sorted_desc (e : Engine) (q : String) :
    ((search e q).2).Pairwise (fun a b : String × Nat => b.2 ≤ a.2) := by
  unfold search searchSt
  by_cases hb : isBlank q = true
  · simp [hb]
  · simp only [hb, if_false]
    rcases hE : (normalizeQuery e.stopwords q).isEmpty with _ | _
    · simp only [Bool.false_eq_true, if_false]
      rcases hi : intersectLoopSt e none (normalizeQuery e.stopwords q)
        with ⟨e1, res⟩
      rcases res with t | m
      · simp
      · rcases m with _ | M
        · simp
        · rcases hM : M.isEmpty with _ | _
          · simp only [hM, Bool.false_eq_true, if_false]
            exact sortByScore_sorted _
          · simp [hM]
    · simp [hE]

/-- Claim C5: if the normalized term list of a query decomposes as
`pre ++ t :: suf` where every term of `pre` has a posting set and `t`
(the first absent term) does not, `search` returns the empty result list
and reports exactly `t` — and because `suf` is universally quantified
while the output does not depend on it, the evaluation provably
short-circuits without consulting any term after `t`. -/
theorem absent_term_reported_and_short_circuits (e : Engine) (q t : String)
    (pre suf : List String)
    (hq : normalizeQuery e.stopwords q = pre ++ t :: suf)
    (hpre : ∀ u ∈ pre, u ∈ e.ii_keys)
    (ht : t ∉ e.ii_keys) :
    search e q = (Disposition.termNotFound t, []) := by
  unfold search
  rw [searchSt_absent e q t pre suf hq hpre ht]

/-- Witness for C5: in a one-document corpus, the query
"alpha zzz beta" fails on its first absent term "zzz" although "alpha"
matches and "beta" also occurs in the corpus. -/
theorem absent_term_witness :
    search (build_index [("a.html", "alpha beta")]) "alpha zzz beta" =
      (Disposition.termNotFound "zzz", []) :=
  absent_term_reported_and_short_circuits
    (build_index [("a.html", "alpha beta")]) "alpha zzz beta" "zzz"
    ["alpha"] ["beta"] (by decide) (by decide) (by decide)

/-- Claim C4: if two terms both have non-empty posting sets in an
indexed corpus but the sets are disjoint, the query normalizing to
exactly those two terms returns the empty result list (AND semantics). -/
theorem disjoint_terms_query_empty (docs : List (String × String))
    (q t1 t2 : String)
    (hq : normalizeQuery defaultStopwords q = [t1, t2])
    (h1 : (build_index docs).posting t1 ≠ [])
    (h2 : (build_index docs).posting t2 ≠ [])
    (hdisj : ∀ d ∈ (build_index docs).posting t1,
      d ∉ (build_index docs).posting t2) :
    search (build_index docs) q = (Disposition.noMatch, []) := by
  have hc := consistent_build_index docs
  have hk1 : t1 ∈ (build_index docs).ii_keys := by
    by_contra hk
    exact h1 (hc.2.1 t1 hk)
  have hk2 : t2 ∈ (build_index docs).ii_keys := by
    by_contra hk
    exact h2 (hc.2.1 t2 hk)
  have hq' : normalizeQuery (build_index docs).stopwords q = [t1, t2] := by
    rw [build_index_stopwords]
    exact hq
  have hM : interList (build_index docs)
      ((build_index docs).posting t1) [t2] = [] := by
    unfold interList
    simp only [List.foldl_cons, List.foldl_nil]
    apply List.filter_eq_nil_iff.mpr
    intro d hd
    simpa using hdisj d hd
  unfold search
  rw [searchSt_noMatch (build_index docs) q t1 [t2] hq'
    (by intro u hu
        rcases List.mem_cons.mp hu with rfl | hu'
        · exact hk1
        · simp at hu'
          subst hu'
          exact hk2)
    hM]

/-- Witness for C4: "alpha" only matches a.html, "gamma" only matches
b.html, and the query "alpha gamma" returns no results. -/
theorem disjoint_terms_witness :
    search (build_index [("a.html", "alpha orbit"), ("b.html", "gamma ray")])
      "alpha gamma" = (Disposition.noMatch, []) :=
  disjoint_terms_query_empty
    [("a.html", "alpha orbit"), ("b.html", "gamma ray")]
    "alpha gamma" "alpha" "gamma" (by decide) (by decide) (by decide)
    (by decide)

/-- Claim C3: if a document of a corpus (with pairwise-distinct
filenames) contains a term exactly `n > 0` times in its normalized token
stream, then any query normalizing to exactly that one term returns a
result list containing that document with score exactly `n`. -/
theorem single_term_query_scores_exact_count (docs : List (String × String))
    (d x t q : String) (n : Nat)
    (hnodup : (docs.map Prod.fst).Nodup)
    (hmem : (d, x) ∈ docs)
    (hcount : (normalizeDoc defaultStopwords x).count t = n)
    (hn : 0 < n)
    (hq : normalizeQuery defaultStopwords q = [t]) :
    (d, n) ∈ (search (build_index docs) q).2 := by
  have ht : t ∈ normalizeDoc defaultStopwords x :=
    List.count_pos_iff.mp (by rw [hcount]; exact hn)
  have hfact : DocFact (build_index docs) t d n := by
    have h0 := build_index_docfact docs initEngine d x t hnodup hmem ht
    rw [show normalizeDoc initEngine.stopwords x =
      normalizeDoc defaultStopwords x from rfl, hcount] at h0
    exact h0
  obtain ⟨hk1, hk2, hk3, hk4⟩ := hfact
  have hq' : normalizeQuery (build_index docs).stopwords q = [t] := by
    rw [build_index_stopwords]
    exact hq
  unfold search
  rw [searchSt_results (build_index docs) q t [] hq'
    (by intro u hu
        simp at hu
        subst hu
        exact hk1)
    (List.ne_nil_of_mem hk3)]
  rw [mem_sortByScore]
  apply List.mem_map.mpr
  refine ⟨d, hk3, ?_⟩
  simp [hk2, hk4]

/-- Witness for C3: "cloud" occurs twice in the only document, and the
single-term query "cloud" scores it exactly 2. -/
theorem single_term_query_witness :
    (("docA.html" : String), 2) ∈
      (search (build_index [("docA.html", "cloud security cloud")])
        "cloud").2 :=
  single_term_query_scores_exact_count
    [("docA.html", "cloud security cloud")] "docA.html"
    "cloud security cloud" "cloud" "cloud" 2
    (by decide) (by decide) (by decide) (by decide) (by decide)

/-- Counterexample to claim C1: in the corpus with one document whose
text is just "security", the query "security security" scores the
document 2 while "security" scores it 1 — the scoring loop of `search`
iterates over the normalized term LIST (`filtered_terms`), not over a
deduplicated set, so a repeated query term is counted once per
occurrence and the two queries do not return the same score. -/
theorem duplicate_term_counted_twice :
    (search (build_index [("d1.html", "security")]) "security security").2 ≠
      (search (build_index [("d1.html", "security")]) "security").2 ∧
    (search (build_index [("d1.html", "security")]) "security security").2 =
      [("d1.html", 2)] ∧
    (search (build_index [("d1.html", "security")]) "security").2 =
      [("d1.html", 1)] := by
  refine ⟨?_, ?_, ?_⟩ <;> decide

/-- Claim C1 as amended: for every document in the intersection of the
query's posting sets, the returned score is the sum of term frequencies
over the normalized query term list WITH multiplicity — a term repeated
in the raw query contributes once per occurrence, so querying "t t"
yields twice the score of querying "t". -/
theorem score_sums_term_list_with_multiplicity (e : Engine)
    (q d t : String) (ts : List String)
    (hq : normalizeQuery e.stopwords q = t :: ts)
    (hkeys : ∀ u ∈ t :: ts, u ∈ e.ii_keys)
    (htf : ∀ u ∈ t :: ts, u ∈ e.tf_keys)
    (hd : ∀ u ∈ t :: ts, d ∈ e.posting u) :
    (d, ((t :: ts).map (fun u => e.tf u d)).sum) ∈ (search e q).2 := by
  have hdM : d ∈ interList e (e.posting t) ts :=
    (mem_interList ts (e.posting t) e d).mpr
      ⟨hd t (by simp), fun u hu => hd u (by simp [hu])⟩
  unfold search
  rw [searchSt_results e q t ts hq hkeys (List.ne_nil_of_mem hdM)]
  rw [mem_sortByScore]
  apply List.mem_map.mpr
  refine ⟨d, hdM, ?_⟩
  have hfilter : (t :: ts).filter (fun u => decide (u ∈ e.tf_keys)) =
      t :: ts :=
    List.filter_eq_self.mpr (fun a ha => decide_eq_true (htf a ha))
  simp only [hfilter]

/-- Witness for the amended C1: querying "security security" against the
one-document corpus of the counterexample indeed returns score
1 + 1 = 2 for the document. -/
theorem score_multiplicity_witness :
    (("d1.html" : String), 2) ∈
      (search (build_index [("d1.html", "security")])
        "security security").2 := by
  have h := score_sums_term_list_with_multiplicity
    (build_index [("d1.html", "security")]) "security security" "d1.html"
    "security" ["security"] (by decide) (by decide) (by decide) (by decide)
  have hs : ((("security" :: ["security"]).map
      (fun u => (build_index [("d1.html", "security")]).tf u "d1.html")).sum)
      = 2 := by decide
  rw [hs] at h
  exact h

/-- Claim C8: whenever the query's normalized term list is empty (every
raw token is a stopword or has length at most 1), `search` returns a
well-formed empty result list together with the precise disposition:
`emptyQuery` exactly when the raw query is blank (only whitespace), and
`allStopwords` otherwise — the two conditions are distinct constructors
and are never conflated, and no exception is raised (the function is
total). -/
theorem empty_normalization_dispositions (e : Engine) (q : String)
    (h : ∀ tok ∈ tokenize q, tok ∈ e.stopwords ∨ tok.length ≤ 1) :
    searchSt e q =
      (e, (if isBlank q then Disposition.emptyQuery
           else Disposition.allStopwords), []) := by
  have hnil : normalizeQuery e.stopwords q = [] := by
    apply List.filter_eq_nil_iff.mpr
    intro tok htok
    rcases h tok htok with hsw | hlen
    · simp [hsw]
    · simp
      omega
  unfold searchSt
  by_cases hb : isBlank q = true
  · simp [hb]
  · simp [hb, hnil]

/-- Witness for C8: the all-stopword query "the and is" yields the
`allStopwords` disposition while the whitespace query yields
`emptyQuery`, both with empty results. -/
theorem empty_normalization_witness :
    searchSt initEngine "the and is" =
      (initEngine, Disposition.allStopwords, []) ∧
    searchSt initEngine "   " =
      (initEngine, Disposition.emptyQuery, []) := by
  constructor
  · have h := empty_normalization_dispositions initEngine "the and is"
      (by decide)
    rw [h]
    have hb : isBlank "the and is" = false := by decide
    simp [hb]
  · have h := empty_normalization_dispositions initEngine "   " (by decide)
    rw [h]
    have hb : isBlank "   " = true := by decide
    simp [hb]
